import Mathlib

/-!
Verification of the elements GUI library core: proxy delegation and subject
search (lib/include/elements/element/proxy.hpp), resource path lookup
(lib/src/support/resource_paths.cpp), font matching
(lib/src/support/font.cpp), and the composite tile layout algorithm
(modelled from the design document, section 4.3).

Machine reals (`float`/`double` in the C++ sources) are embedded as `ℚ`;
C++ class hierarchies and `dynamic_cast` are embedded by giving every
element a numeric dynamic-type tag and representing a requested pointer
type `Ptr` as a decidable predicate on tags.
-/

set_option autoImplicit false

namespace Elements

/-- View limits: minimum and maximum extent on each axis, as reported by
`element::limits`. -/
structure ViewLimits where
  minX : ℚ
  minY : ℚ
  maxX : ℚ
  maxY : ℚ
deriving DecidableEq, Repr

/-- Stretch weight pair, as reported by `element::stretch`. -/
structure ViewStretch where
  x : ℚ
  y : ℚ
deriving DecidableEq, Repr

/-- Drawing-context state: an abstract log of drawing operations issued to
the backend canvas.  `draw` appends to it. -/
abbrev DrawState := List Nat

/-- Optional capability overrides of a proxy.  Modelled from the spec:
"overridden capabilities may inspect or transform the subject's result
before returning" (section 3, Proxy invariant); `none` means the `proxy_base`
default, which forwards unchanged to the subject. -/
structure Overrides where
  limitsOv : Option (ViewLimits → ViewLimits)
  stretchOv : Option (ViewStretch → ViewStretch)
  drawOv : Option (DrawState → DrawState)

/-- The trivial override set: every capability keeps the `proxy_base`
default behavior. -/
def noOverride : Overrides := ⟨none, none, none⟩

/-- An element tree node.  A `leaf` is any non-proxy element, carrying its
dynamic-type tag, its reported limits and stretch, and the drawing
operations it issues.  A `proxy` is a `proxy_base`-derived element carrying
its tag, its capability overrides and its one subject
(proxy.hpp lines 21-59: a proxy owns exactly one subject element). -/
inductive Element where
  | leaf (ty : Nat) (lims : ViewLimits) (str : ViewStretch) (ops : List Nat)
  | proxy (ty : Nat) (ov : Overrides) (subject : Element)

/-- Dynamic-type tag of an element (stands for its C++ dynamic type). -/
def Element.ty : Element → Nat
  | .leaf t _ _ _ => t
  | .proxy t _ _ => t

/-- Whether `dynamic_cast<proxy_base*>` on this element succeeds. -/
def Element.isProxy : Element → Bool
  | .leaf _ _ _ _ => false
  | .proxy _ _ _ => true

/-- Structural size of an element tree, used to show a proxy's subjects
are strictly beneath it. -/
def Element.esize : Element → Nat
  | .leaf _ _ _ _ => 1
  | .proxy _ _ s => s.esize + 1

/-- Modelled from the spec: `proxy_base::limits` (declared proxy.hpp line 27,
body not in the sampled sources) forwards to the subject by default; an
overriding subclass may transform the subject's result. -/
def limits : Element → ViewLimits
  | .leaf _ l _ _ => l
  | .proxy _ ov s =>
    match ov.limitsOv with
    | some f => f (limits s)
    | none => limits s

/-- Modelled from the spec: `proxy_base::stretch` (declared proxy.hpp
line 28) forwards to the subject by default. -/
def stretch : Element → ViewStretch
  | .leaf _ _ st _ => st
  | .proxy _ ov s =>
    match ov.stretchOv with
    | some f => f (stretch s)
    | none => stretch s

/-- Modelled from the spec: `proxy_base::draw` (declared proxy.hpp line 30)
forwards to the subject by default; a leaf appends its own operations to
the drawing context. -/
def draw : Element → DrawState → DrawState
  | .leaf _ _ _ ops, st => st ++ ops
  | .proxy _ ov s, st =>
    match ov.drawOv with
    | some f => f (draw s st)
    | none => draw s st

/-- Embedding of `find_subject<Ptr>` (proxy.hpp lines 94-106): cast the
element to `proxy_base`; while that succeeds, take its subject, return it
if it casts to `Ptr`, otherwise continue with the subject as the next
proxy candidate.  `P` is the tag predicate embedding `dynamic_cast<Ptr>`. -/
def find_subject (P : Nat → Bool) : Element → Option Element
  | .leaf _ _ _ _ => none
  | .proxy _ _ s => if P s.ty then some s else find_subject P s

/-- Embedding of `find_element<Ptr>` (proxy.hpp lines 113-119): if the
element itself casts to `Ptr` return it, else search its proxy subjects. -/
def find_element (P : Nat → Bool) (e : Element) : Option Element :=
  if P e.ty then some e else find_subject P e

/-- The chain of proxy subjects beneath an element, outermost first,
ending at the first non-proxy subject (which has no subjects of its own). -/
def subjects : Element → List Element
  | .leaf _ _ _ _ => []
  | .proxy _ _ s => s :: subjects s

/-- Concrete non-proxy element of dynamic type 5 used as a witness. -/
def sampleLeaf : Element := .leaf 5 ⟨0, 0, 0, 0⟩ ⟨1, 1⟩ []

/-!
Resource path lookup, embedding lib/src/support/resource_paths.cpp.
C++ `std::string` path values are embedded as `List Char` so that every
operation is kernel-executable; the filesystem itself is abstracted as an
oracle telling which path strings name an existing file.
-/

/-- A path or file-name string, embedded as its character list. -/
abbrev Str := List Char

/-- Embedding of `fs::path(path) / file` followed by `.string()`: join a
directory and a relative file name with the path separator. -/
def pathConcat (dir file : Str) : Str := dir ++ '/' :: file

/-- Embedding of `fs::path(file).is_absolute()` on POSIX: the path begins
with the root directory separator. -/
def isAbsolutePath (s : Str) : Bool :=
  match s with
  | [] => false
  | c :: _ => c = '/'

/-- The loop of `find_file` (resource_paths.cpp lines 25-33): scan the
registered directories in order; the first whose joined target exists is
copied into `full_path` and the loop breaks; otherwise `full_path` keeps
its initial empty value. -/
def find_file_scan (ex : Str → Bool) (file : Str) : List Str → Str
  | [] => []
  | p :: rest =>
    if ex (pathConcat p file) then pathConcat p file
    else find_file_scan ex file rest

/-- Embedding of `find_file` (resource_paths.cpp lines 15-36).  `ex` is the
filesystem oracle for `fs::exists` and `resource_paths` the registered
directory list.  The absolute branch is kept exactly as the source writes
it: `full_path` is initialized empty and the branch tests
`fs::exists(full_path)` — the still-empty result string — before copying
the input into it. -/
def find_file (ex : Str → Bool) (resource_paths : List Str) (file : Str) : Str :=
  if isAbsolutePath file then
    if ex [] then file else []
  else
    find_file_scan ex file resource_paths

/-- Relative file name used by the C6 witness. -/
def sampleFileName : Str := "f.txt".data

/-- Filesystem oracle for the C6 witness: exactly one path exists, the
target under the second registered directory. -/
def sampleFS : Str → Bool := fun s => s == ("b".data ++ '/' :: sampleFileName)

/-- Registered directories used by the C6 witness. -/
def samplePaths : List Str := ["a".data, "b".data, "c".data]

/-- Absolute path used by the C8 witness. -/
def sampleAbsName : Str := "/etc/app.conf".data

/-- Filesystem oracle for the C8 witness: the absolute path itself exists
(and the empty path does not). -/
def sampleAbsFS : Str → Bool := fun s => s == sampleAbsName

/-!
Font matching, embedding lib/src/support/font.cpp.  The discovered font
map (`init_font_map` queries fontconfig, an external collaborator) is a
parameter; `double` scores are embedded as `ℚ`; the opaque cairo font face
handle is an abstract `Handle`, with nullable handles as `Option Handle`.
-/

/-- Embedding of `trim` (font.cpp lines 43-61): erase leading and trailing
whitespace. -/
def trimStr (s : Str) : Str :=
  (((s.dropWhile Char.isWhitespace).reverse).dropWhile Char.isWhitespace).reverse

/-- Split on a delimiter, keeping empty segments (the shape of
`std::string` split on every delimiter occurrence). -/
def splitAux (delim : Char) : Str → Str → List Str
  | [], acc => [acc.reverse]
  | c :: rest, acc =>
    if c = delim then acc.reverse :: splitAux delim rest []
    else splitAux delim rest (c :: acc)

/-- Embedding of the `std::getline(str, family, ',')` loop of `match`
(font.cpp lines 224-227): the sequence of tokens read from a stream over
`s`.  `getline` fails at end of stream, so an empty input yields no tokens
and a trailing delimiter yields no trailing empty token. -/
def getlineSplit (delim : Char) (s : Str) : List Str :=
  if s = [] then []
  else if s.getLast? = some delim then (splitAux delim s []).dropLast
  else splitAux delim s []

/-- Embedding of `font_entry` (font.cpp lines 90-97).  The `uint8_t`
attribute fields are embedded as `Nat`; their 8-bit range appears as
explicit hypotheses where a theorem needs it. -/
structure font_entry where
  full_name : Str
  file : Str
  weight : Nat
  slant : Nat
  stretch : Nat
deriving DecidableEq, Repr

/-- A font description: comma-separated family list and the requested
weight, slant and stretch attributes. -/
structure font_descr where
  families : Str
  weight : Nat
  slant : Nat
  stretch : Nat
deriving DecidableEq, Repr

/-- The discovered font map (`font_map()` in font.cpp line 99-104), family
name to entry list, embedded as an association list with unique keys. -/
abbrev FontMap := List (Str × List font_entry)

/-- Embedding of `font_map().find(family)` (font.cpp line 229). -/
def lookupFamily (m : FontMap) (fam : Str) : Option (List font_entry) :=
  (m.find? (fun kv => kv.fst == fam)).map Prod.snd

/-- Embedding of the biased score of `match` (font.cpp lines 241-245),
lower is better: `slant` has the highest bias 3.0, then `weight` 1.0,
then `stretch` 0.25. -/
def score (d : font_descr) (e : font_entry) : ℚ :=
  ((((d.weight : ℤ) - (e.weight : ℤ)).natAbs : ℚ) * 1) +
  ((((d.slant : ℤ) - (e.slant : ℤ)).natAbs : ℚ) * 3) +
  ((((d.stretch : ℤ) - (e.stretch : ℤ)).natAbs : ℚ) * (1 / 4))

/-- The inner loop of `match` (font.cpp lines 232-251) over one family's
entry vector: track the best score seen in the `int` variable `min`
(initially 10000; assigning the `double` score to it truncates, and the
score is nonnegative, so the truncation is `Int.floor`) and the best entry
so far. -/
def bestMatchGo (d : font_descr) :
    List font_entry → ℤ → Option font_entry → Option font_entry
  | [], _, best => best
  | e :: rest, m, best =>
    if score d e < (m : ℚ) then bestMatchGo d rest ⌊score d e⌋ (some e)
    else bestMatchGo d rest m best

/-- Best entry of one family's vector, `none` exactly when no entry scores
below the initial 10000 (in particular when the vector is empty). -/
def bestMatch (d : font_descr) (entries : List font_entry) : Option font_entry :=
  bestMatchGo d entries 10000 none

/-- The family loop of `match` (font.cpp lines 226-255): take the families
left to right, trim each, look it up in the font map; when found and a
best entry exists, return it, otherwise continue with the next family. -/
def matchGo (m : FontMap) (d : font_descr) : List Str → Option font_entry
  | [] => none
  | fam :: rest =>
    match lookupFamily m (trimStr fam) with
    | some entries =>
      match bestMatch d entries with
      | some e => some e
      | none => matchGo m d rest
    | none => matchGo m d rest

/-- Embedding of `match` (font.cpp lines 219-257): split the description's
family list on commas and run the family loop. -/
def matchFont (m : FontMap) (d : font_descr) : Option font_entry :=
  matchGo m d (getlineSplit ',' d.families)

/-- Opaque cairo font face handle. -/
abbrev Handle := Nat

/-- Embedding of the constructor `font::font(font_descr)` (font.cpp lines
288-330): when `match` finds an entry, the handle comes from the process
cache keyed by full name, or failing that from loading the entry's file
(which may itself fail and leave a null handle); when `match` finds
nothing, the handle is null.  The cache-insertion side effect does not
change the returned handle and is elided. -/
def font_construct (m : FontMap) (cache : List (Str × Handle))
    (load : Str → Option Handle) (d : font_descr) : Option Handle :=
  match matchFont m d with
  | some entry =>
    match (cache.find? (fun kv => kv.fst == entry.full_name)).map Prod.snd with
    | some h => some h
    | none => load entry.file
  | none => none

/-- Font entry for the Arial family used by the font witnesses. -/
def arialEntry : font_entry :=
  ⟨"Arial Regular".data, "arial.ttf".data, 80, 0, 50⟩

/-- Font entry for the Times family used by the font witnesses. -/
def timesEntry : font_entry :=
  ⟨"Times Regular".data, "times.ttf".data, 80, 0, 50⟩

/-- Discovered font map used by the font witnesses: two families. -/
def sampleFontMap : FontMap :=
  [("Arial".data, [arialEntry]), ("Times".data, [timesEntry])]

/-- Description used by the C7 witness: neither requested family was
discovered. -/
def missDescr : font_descr := ⟨"Helvetica, Roboto".data, 80, 0, 50⟩

/-- Description used by the C10 witness: the first family is unknown, the
second and third are both in the map. -/
def threeFamilyDescr : font_descr := ⟨"Zzz, Arial, Times".data, 80, 0, 50⟩

/-!
Composite tile layout.  The tile algorithm's source (lib/src/element/tile.cpp)
is not among the sampled sources — only its callers in
examples/layout/main.cpp are — so the whole algorithm is modelled from the
design document, section 4.3, steps 1-4 and the section 9 recommendation
of proportional redistribution repeated to a fixed point.  Each round
gives every still-active child `extra_i = slack * stretch_i / wsum`; since
`ℚ` division by zero is zero, a round whose remaining active children all
have stretch 0 (so `wsum = 0`) assigns them zero extra, matching the
"remaining slack left unused" clause.
-/

/-- Main-axis layout data of one child of a tile: its limits
`(min, max)` on the main axis and its stretch weight. -/
structure Child where
  min : ℚ
  max : ℚ
  stretch : ℚ
deriving DecidableEq, Repr

/-- A child slot during slack distribution: either already clamped to a
fixed extent, or still active in the proportional distribution. -/
inductive Slot where
  | fixed (extent : ℚ)
  | active (c : Child)
deriving DecidableEq, Repr

/-- Extent a slot is guaranteed at least: its clamped extent, or the
child's minimum. -/
def slotMin : Slot → ℚ
  | .fixed e => e
  | .active c => c.min

/-- Stretch weight a slot contributes to a distribution round. -/
def slotStretch : Slot → ℚ
  | .fixed _ => 0
  | .active c => c.stretch

/-- Sum of the stretch weights of the remaining active children. -/
def totalStretch (slots : List Slot) : ℚ := (slots.map slotStretch).sum

/-- Modelled from the spec: the proportional share of the slack,
`extra_i = slack * stretch_i / sum(stretch_j)` (section 4.3, step 3). -/
def extraOf (slack wsum : ℚ) (c : Child) : ℚ := slack * c.stretch / wsum

/-- Whether a slot's child would exceed its maximum under the current
round's distribution (section 4.3, step 4: `min_i + extra_i > max_i`). -/
def overMax (slack wsum : ℚ) : Slot → Prop
  | .fixed _ => False
  | .active c => c.max < c.min + extraOf slack wsum c

instance overMaxDec (slack wsum : ℚ) : (s : Slot) → Decidable (overMax slack wsum s)
  | .fixed _ => Decidable.isFalse (fun h => h)
  | .active c => inferInstanceAs (Decidable (c.max < c.min + extraOf slack wsum c))

/-- Whether any child would exceed its maximum in this round. -/
def anyOver (slack wsum : ℚ) : List Slot → Prop
  | [] => False
  | s :: rest => overMax slack wsum s ∨ anyOver slack wsum rest

instance anyOverDec (slack wsum : ℚ) :
    (slots : List Slot) → Decidable (anyOver slack wsum slots)
  | [] => Decidable.isFalse (fun h => h)
  | s :: rest => @instDecidableOr _ _ (overMaxDec slack wsum s) (anyOverDec slack wsum rest)

/-- Modelled from the spec: one clamping round (section 4.3, step 4).
Every child over its maximum under the current distribution is clamped to
its maximum; the pass returns the new slots and the slack those clamps
consumed (`max_i - min_i` each). -/
def clampPass (slack wsum : ℚ) : List Slot → List Slot × ℚ
  | [] => ([], 0)
  | s :: rest =>
    let r := clampPass slack wsum rest
    match s with
    | .active c =>
      if c.max < c.min + extraOf slack wsum c then
        (Slot.fixed c.max :: r.1, r.2 + (c.max - c.min))
      else (Slot.active c :: r.1, r.2)
    | .fixed e => (Slot.fixed e :: r.1, r.2)

/-- Final extents once no child is over its maximum: clamped children keep
their maximum, active children get their minimum plus their proportional
share of the remaining slack. -/
def assignFinal (slack wsum : ℚ) (slots : List Slot) : List ℚ :=
  slots.map fun s =>
    match s with
    | .fixed e => e
    | .active c => c.min + extraOf slack wsum c

/-- Modelled from the spec: the fixed-point clamp-and-redistribute loop
(section 4.3, step 4 and section 9): repeat rounds until no child is over
its maximum, redistributing the remaining slack among the still-active
children proportionally to their stretch weights.  Every round clamps at
least one child, so fuel `length + 1` always reaches the fixed point; the
fuel-exhausted fallback (never reached from `tile_layout`) assigns each
slot its guaranteed minimum. -/
def distribute : Nat → List Slot → ℚ → List ℚ
  | 0, slots, _ => slots.map slotMin
  | Nat.succ fuel, slots, slack =>
    if anyOver slack (totalStretch slots) slots then
      let p := clampPass slack (totalStretch slots) slots
      distribute fuel p.1 (slack - p.2)
    else
      assignFinal slack (totalStretch slots) slots

/-- Modelled from the spec: the tile layout pass on the main axis
(section 4.3, steps 1-4).  If the children's summed minima exceed the
available extent, every child is assigned exactly its minimum (step 2,
the overflow case); otherwise the slack `available - total_min` is
distributed proportionally with clamping to maxima. -/
def tile_layout (children : List Child) (available : ℚ) : List ℚ :=
  if available < (children.map Child.min).sum then children.map Child.min
  else
    distribute (children.length + 1) (children.map Slot.active)
      (available - (children.map Child.min).sum)

/-- The element invariant for a tile child (spec section 3): limits are
ordered and the stretch weight is nonnegative. -/
def ChildValid (c : Child) : Prop := c.min ≤ c.max ∧ 0 ≤ c.stretch

/-- Relation between an original child and its current slot: an active
slot still holds the child itself; a clamped slot holds an extent within
the child's limits. -/
def SlotRel (c : Child) (s : Slot) : Prop :=
  match s with
  | .fixed e => c.min ≤ e ∧ e ≤ c.max
  | .active c2 => c2 = c

/-- Validity of a slot on its own: an active slot holds a valid child. -/
def SlotValid : Slot → Prop
  | .fixed _ => True
  | .active c => ChildValid c

/-- Slack share a slot receives in the current round: zero if clamped. -/
def slotExtra (slack wsum : ℚ) : Slot → ℚ
  | .fixed _ => 0
  | .active c => extraOf slack wsum c

theorem find_subject_mem_subjects (P : Nat → Bool) :
    ∀ (e r : Element), find_subject P e = some r → r ∈ subjects e := by
  intro e
  induction e with
  | leaf t l s o => intro r h; simp [find_subject] at h
  | proxy t ov s ih =>
    intro r h
    simp only [find_subject] at h
    by_cases hP : P s.ty
    · simp [hP] at h
      simp [subjects, h]
    · simp [hP] at h
      simp [subjects]
      exact Or.inr (ih r h)

theorem subjects_esize_lt :
    ∀ (e r : Element), r ∈ subjects e → r.esize < e.esize := by
  intro e
  induction e with
  | leaf t l s o => intro r h; simp [subjects] at h
  | proxy t ov s ih =>
    intro r h
    simp only [subjects, List.mem_cons] at h
    rcases h with h | h
    · subst h; simp [Element.esize]
    · exact Nat.lt_trans (ih r h) (by simp [Element.esize])

/-- Claim C4: for a proxy with no capability overridden (the `proxy_base`
default behavior), wrapping any subject, `limits`, `stretch` and `draw`
give the same results — and for `draw`, the same effect on any drawing
context — as calling the subject directly. -/
theorem proxy_default_transparent (t : Nat) (s : Element) :
    limits (.proxy t noOverride s) = limits s ∧
    stretch (.proxy t noOverride s) = stretch s ∧
    ∀ st : DrawState, draw (.proxy t noOverride s) st = draw s st :=
  ⟨rfl, rfl, fun _ => rfl⟩

/-- Claim C5: `find_subject` walks the chain of proxy subjects from
outermost to innermost and returns the first one whose dynamic type
matches the requested predicate, or `none` if the chain ends at a
non-proxy without a match; it never looks past the first match or the
first non-proxy subject, because the chain itself stops there. -/
theorem find_subject_first_in_chain (P : Nat → Bool) (e : Element) :
    find_subject P e = (subjects e).find? (fun x => P x.ty) := by
  induction e with
  | leaf t l s o => rfl
  | proxy t ov s ih =>
    simp only [find_subject, subjects]
    cases hP : P s.ty
    · simp [List.find?, hP, ih]
    · simp [List.find?, hP]

/-- Claim C9: when an element's own dynamic type matches the requested
pointer type, `find_element` returns the element itself without unwrapping
any proxy, whereas `find_subject` never returns the element itself (it
only examines subjects strictly beneath it) and returns `none` outright
for a non-proxy element of the requested type. -/
theorem find_element_self_vs_find_subject (P : Nat → Bool) (e : Element)
    (h : P e.ty = true) :
    find_element P e = some e ∧
    (∀ r, find_subject P e = some r → r ≠ e) ∧
    (e.isProxy = false → find_subject P e = none) := by
  refine ⟨by simp [find_element, h], ?_, ?_⟩
  · intro r hr
    have hmem := find_subject_mem_subjects P e r hr
    have hlt := subjects_esize_lt e r hmem
    intro heq
    rw [heq] at hlt
    exact Nat.lt_irrefl _ hlt
  · intro hnp
    cases e with
    | leaf t l s o => rfl
    | proxy t ov s => simp [Element.isProxy] at hnp

/-- Witness for C9 at a concrete non-proxy element whose type matches. -/
theorem find_element_self_vs_find_subject_witness :
    ((fun t => t == 5) sampleLeaf.ty = true) ∧
    (find_element (fun t => t == 5) sampleLeaf = some sampleLeaf ∧
     (∀ r, find_subject (fun t => t == 5) sampleLeaf = some r → r ≠ sampleLeaf) ∧
     (sampleLeaf.isProxy = false →
       find_subject (fun t => t == 5) sampleLeaf = none)) :=
  ⟨rfl, find_element_self_vs_find_subject (fun t => t == 5) sampleLeaf rfl⟩

/-- Claim C6: for every relative file name, `find_file` scans the
registered resource paths in order and returns the concatenation with the
first directory under which the file exists; if the file exists under no
registered directory it returns the empty string — lookup failure is an
empty result, not an error. -/
theorem find_file_relative_first_hit (ex : Str → Bool) (paths : List Str)
    (file : Str) (hrel : isAbsolutePath file = false) :
    find_file ex paths file =
      (match paths.find? (fun p => ex (pathConcat p file)) with
       | some p => pathConcat p file
       | none => []) := by
  simp only [find_file, hrel, Bool.false_eq_true, if_false]
  induction paths with
  | nil => rfl
  | cons p rest ih =>
    cases h : ex (pathConcat p file) <;>
      simp [find_file_scan, h, List.find?, ih]

/-- Witness for C6: scanning three registered directories finds the file
under the second one. -/
theorem find_file_relative_first_hit_witness :
    isAbsolutePath sampleFileName = false ∧
    find_file sampleFS samplePaths sampleFileName =
      (match samplePaths.find? (fun p => sampleFS (pathConcat p sampleFileName)) with
       | some p => pathConcat p sampleFileName
       | none => []) :=
  ⟨by decide, find_file_relative_first_hit sampleFS samplePaths sampleFileName (by decide)⟩

/-- Claim C8: for every absolute input path, `find_file` returns the empty
string even when a file exists at that path: the absolute branch tests
existence of the still-empty result string instead of the input
(resource_paths.cpp lines 17-22), so the input is never copied into the
result.  `fs::exists` on the empty path is always false; that filesystem
fact is the hypothesis `h0` on the oracle. -/
theorem find_file_absolute_always_empty (ex : Str → Bool) (paths : List Str)
    (file : Str) (habs : isAbsolutePath file = true) (h0 : ex [] = false) :
    find_file ex paths file = [] := by
  simp [find_file, habs, h0]

/-- Witness for C8: the file exists at the absolute path, yet `find_file`
returns the empty string. -/
theorem find_file_absolute_always_empty_witness :
    isAbsolutePath sampleAbsName = true ∧
    sampleAbsFS [] = false ∧
    sampleAbsFS sampleAbsName = true ∧
    find_file sampleAbsFS samplePaths sampleAbsName = [] :=
  ⟨by decide, by decide, by decide,
    find_file_absolute_always_empty sampleAbsFS samplePaths sampleAbsName
      (by decide) (by decide)⟩

theorem matchGo_none_of_all_miss (m : FontMap) (d : font_descr) :
    ∀ fams : List Str,
      (∀ fam ∈ fams, lookupFamily m (trimStr fam) = none) →
      matchGo m d fams = none := by
  intro fams
  induction fams with
  | nil => intro _; rfl
  | cons fam rest ih =>
    intro h
    have hfam := h fam (List.mem_cons_self fam rest)
    have hrest := fun f hf => h f (List.mem_cons_of_mem fam hf)
    simp [matchGo, hfam, ih hrest]

/-- Claim C7: constructing a font from a description whose comma-separated
family list contains no family present in the discovered font map yields a
null handle; the failure is surfaced only as the null handle, not as an
error. -/
theorem font_construct_null_on_no_family (m : FontMap)
    (cache : List (Str × Handle)) (load : Str → Option Handle)
    (d : font_descr)
    (h : ∀ fam ∈ getlineSplit ',' d.families,
      lookupFamily m (trimStr fam) = none) :
    font_construct m cache load d = none := by
  have hm : matchFont m d = none := matchGo_none_of_all_miss m d _ h
  simp [font_construct, hm]

/-- Witness for C7: no listed family is in the map, so the constructed
handle is null even though the loader always succeeds. -/
theorem font_construct_null_on_no_family_witness :
    (∀ fam ∈ getlineSplit ',' missDescr.families,
      lookupFamily sampleFontMap (trimStr fam) = none) ∧
    font_construct sampleFontMap [] (fun _ => some 7) missDescr = none :=
  ⟨by decide,
    font_construct_null_on_no_family sampleFontMap [] (fun _ => some 7)
      missDescr (by decide)⟩

theorem bestMatchGo_from_some (d : font_descr) :
    ∀ (l : List font_entry) (mv : ℤ) (b : font_entry),
      ∃ c, bestMatchGo d l mv (some b) = some c ∧ (c ∈ l ∨ c = b) := by
  intro l
  induction l with
  | nil => intro mv b; exact ⟨b, rfl, Or.inr rfl⟩
  | cons e rest ih =>
    intro mv b
    by_cases h : score d e < (mv : ℚ)
    · obtain ⟨c, hc, hm⟩ := ih ⌊score d e⌋ e
      refine ⟨c, ?_, ?_⟩
      · simp [bestMatchGo, h, hc]
      · rcases hm with hm | hm
        · exact Or.inl (List.mem_cons_of_mem e hm)
        · exact Or.inl (hm ▸ List.mem_cons_self e rest)
    · obtain ⟨c, hc, hm⟩ := ih mv b
      refine ⟨c, ?_, ?_⟩
      · simp [bestMatchGo, h, hc]
      · rcases hm with hm | hm
        · exact Or.inl (List.mem_cons_of_mem e hm)
        · exact Or.inr hm

theorem score_lt_initial (d : font_descr) (e : font_entry)
    (hdw : d.weight ≤ 255) (hds : d.slant ≤ 255) (hdt : d.stretch ≤ 255)
    (hew : e.weight ≤ 255) (hes : e.slant ≤ 255) (het : e.stretch ≤ 255) :
    score d e < ((10000 : ℤ) : ℚ) := by
  have hw : ((d.weight : ℤ) - (e.weight : ℤ)).natAbs ≤ 255 := by omega
  have hs : ((d.slant : ℤ) - (e.slant : ℤ)).natAbs ≤ 255 := by omega
  have ht : ((d.stretch : ℤ) - (e.stretch : ℤ)).natAbs ≤ 255 := by omega
  have hwq : ((((d.weight : ℤ) - (e.weight : ℤ)).natAbs : ℚ)) ≤ 255 := by
    exact_mod_cast hw
  have hsq : ((((d.slant : ℤ) - (e.slant : ℤ)).natAbs : ℚ)) ≤ 255 := by
    exact_mod_cast hs
  have htq : ((((d.stretch : ℤ) - (e.stretch : ℤ)).natAbs : ℚ)) ≤ 255 := by
    exact_mod_cast ht
  have h0 : ((10000 : ℤ) : ℚ) = 10000 := by norm_num
  rw [score, h0]
  linarith

theorem bestMatch_of_nonempty (d : font_descr) (e0 : font_entry)
    (rest : List font_entry)
    (hdw : d.weight ≤ 255) (hds : d.slant ≤ 255) (hdt : d.stretch ≤ 255)
    (hew : e0.weight ≤ 255) (hes : e0.slant ≤ 255) (het : e0.stretch ≤ 255) :
    ∃ c, bestMatch d (e0 :: rest) = some c ∧ c ∈ e0 :: rest := by
  have hs := score_lt_initial d e0 hdw hds hdt hew hes het
  obtain ⟨c, hc, hm⟩ := bestMatchGo_from_some d rest ⌊score d e0⌋ e0
  refine ⟨c, ?_, ?_⟩
  · show bestMatchGo d (e0 :: rest) 10000 none = some c
    simp only [bestMatchGo]
    rw [if_pos hs]
    exact hc
  · rcases hm with hm | hm
    · exact List.mem_cons_of_mem e0 hm
    · exact hm ▸ List.mem_cons_self e0 rest

theorem matchGo_skips_misses (m : FontMap) (d : font_descr) :
    ∀ (pre : List Str) (fams : List Str),
      (∀ f ∈ pre, lookupFamily m (trimStr f) = none ∨
        lookupFamily m (trimStr f) = some []) →
      matchGo m d (pre ++ fams) = matchGo m d fams := by
  intro pre
  induction pre with
  | nil => intro fams _; rfl
  | cons f rest ih =>
    intro fams h
    have hf := h f (List.mem_cons_self f rest)
    have hrest := fun g hg => h g (List.mem_cons_of_mem f hg)
    rcases hf with hf | hf
    · simpa [matchGo, hf] using ih fams hrest
    · simpa [matchGo, hf, bestMatch, bestMatchGo] using ih fams hrest

/-- Claim C10: font matching consults the comma-separated, trimmed family
names of the description left to right; as soon as a family is found in
the font map with at least one entry, an entry of that family is returned,
and the families listed after it are never considered — the result is the
same as if the list stopped at that family.  The 255 bounds reflect the
`uint8_t` attribute fields, which keep every score below the initial
best-score value 10000. -/
theorem match_first_family_wins (m : FontMap) (d : font_descr)
    (pre : List Str) (fam : Str) (post : List Str)
    (entries : List font_entry)
    (hsplit : getlineSplit ',' d.families = pre ++ fam :: post)
    (hpre : ∀ f ∈ pre, lookupFamily m (trimStr f) = none ∨
      lookupFamily m (trimStr f) = some [])
    (hfam : lookupFamily m (trimStr fam) = some entries)
    (hne : entries ≠ [])
    (hdw : d.weight ≤ 255) (hds : d.slant ≤ 255) (hdt : d.stretch ≤ 255)
    (hent : ∀ e ∈ entries, e.weight ≤ 255 ∧ e.slant ≤ 255 ∧ e.stretch ≤ 255) :
    ∃ e, e ∈ entries ∧ matchFont m d = some e ∧
      matchGo m d (pre ++ [fam]) = some e := by
  obtain ⟨e0, rest, hrw⟩ := List.exists_cons_of_ne_nil hne
  have he0 := hent e0 (by rw [hrw]; exact List.mem_cons_self e0 rest)
  have hbest : ∃ c, bestMatch d entries = some c ∧ c ∈ entries := by
    rw [hrw]
    exact bestMatch_of_nonempty d e0 rest hdw hds hdt he0.1 he0.2.1 he0.2.2
  obtain ⟨c, hc, hcm⟩ := hbest
  refine ⟨c, hcm, ?_, ?_⟩
  · rw [matchFont, hsplit, matchGo_skips_misses m d pre (fam :: post) hpre]
    simp [matchGo, hfam, hc]
  · rw [matchGo_skips_misses m d pre [fam] hpre]
    simp [matchGo, hfam, hc]

/-- Witness for C10: with families Zzz (unknown), Arial, Times, matching
settles on the Arial entry and the outcome is what it would be had the
list ended at Arial. -/
theorem match_first_family_wins_witness :
    getlineSplit ',' threeFamilyDescr.families =
      ["Zzz".data] ++ " Arial".data :: [" Times".data] ∧
    (∃ e, e ∈ [arialEntry] ∧
      matchFont sampleFontMap threeFamilyDescr = some e ∧
      matchGo sampleFontMap threeFamilyDescr (["Zzz".data] ++ [" Arial".data]) =
        some e) :=
  ⟨by decide,
    match_first_family_wins sampleFontMap threeFamilyDescr
      ["Zzz".data] (" Arial".data) [" Times".data] [arialEntry]
      (by decide)
      (by decide)
      (by decide) (by decide)
      (by decide) (by decide) (by decide)
      (by decide)⟩

/-- Claim C2: when the available main-axis extent is strictly below the
sum of the children's minima, every child is assigned exactly its minimum
and the total assigned extent is the sum of the minima (overflow is
allowed; minima are a hard constraint). -/
theorem tile_layout_overflow (children : List Child) (available : ℚ)
    (h : available < (children.map Child.min).sum) :
    tile_layout children available = children.map Child.min ∧
    (tile_layout children available).sum = (children.map Child.min).sum := by
  constructor
  · simp [tile_layout, h]
  · simp [tile_layout, h]

/-- Witness for C2: two children with minima 5 and 7 in available extent
10 both keep exactly their minimum. -/
theorem tile_layout_overflow_witness :
    ((10 : ℚ) < (List.map Child.min [⟨5, 20, 1⟩, ⟨7, 30, 1⟩]).sum) ∧
    (tile_layout [⟨5, 20, 1⟩, ⟨7, 30, 1⟩] 10 =
        List.map Child.min [⟨5, 20, 1⟩, ⟨7, 30, 1⟩] ∧
      (tile_layout [⟨5, 20, 1⟩, ⟨7, 30, 1⟩] 10).sum =
        (List.map Child.min [⟨5, 20, 1⟩, ⟨7, 30, 1⟩]).sum) :=
  ⟨by norm_num [Child.min], tile_layout_overflow _ 10 (by norm_num [Child.min])⟩

/-- Counterexample for C3 as stated: with the literal child limits
`(0,100)`, `(0,100)`, `(0,130)` and stretch weights 1, 2, 1, available
height 500 makes children 1 and 2 clamp at their maxima of 100, and the
result is `100, 100, 130` summing to 330 — not the claimed approximate
`156.67, 213.33, 130`. -/
theorem tile_scenario_literal_counterexample :
    tile_layout [⟨0, 100, 1⟩, ⟨0, 100, 2⟩, ⟨0, 130, 1⟩] 500 = [100, 100, 130] ∧
    (tile_layout [⟨0, 100, 1⟩, ⟨0, 100, 2⟩, ⟨0, 130, 1⟩] 500).sum = 330 := by
  constructor <;>
    norm_num [tile_layout, distribute, clampPass, assignFinal, totalStretch,
      extraOf, overMax, anyOver, slotMin, slotStretch, Child.min]

/-- Claim C3 (amended): in the section 8 scenario the children's minimum
heights are 100, not 0 (the stated available height 300 equals the sum of
the minima, and the naive extras are 50, 100, 50 over slack 200); with
children `(100, 1000, 1)`, `(100, 1000, 2)` and `(100, 130, 1)` laid out
into available height 500, child 3 clamps to 130 and the excess 20
redistributes to children 1 and 2 in proportion 1:2, yielding exactly
`470/3 ≈ 156.67`, `640/3 ≈ 213.33`, `130`. -/
theorem tile_scenario_clamp_redistribute :
    tile_layout [⟨100, 1000, 1⟩, ⟨100, 1000, 2⟩, ⟨100, 130, 1⟩] 500 =
      [470 / 3, 640 / 3, 130] := by
  norm_num [tile_layout, distribute, clampPass, assignFinal, totalStretch,
    extraOf, overMax, anyOver, slotMin, slotStretch, Child.min]

theorem slotValid_of_rel {cs : List Child} {slots : List Slot}
    (hrel : List.Forall₂ SlotRel cs slots)
    (hvalid : ∀ c ∈ cs, ChildValid c) :
    ∀ s ∈ slots, SlotValid s := by
  induction hrel with
  | nil => intro s hs; simp at hs
  | @cons c s cs' slots' hcs _ ih =>
    intro t ht
    rcases List.mem_cons.mp ht with rfl | ht
    · cases t with
      | fixed e => trivial
      | active c2 =>
        have he : c2 = c := hcs
        subst he
        exact hvalid _ (List.mem_cons_self _ _)
    · exact ih (fun x hx => hvalid x (List.mem_cons_of_mem _ hx)) t ht

theorem totalStretch_nonneg {slots : List Slot}
    (h : ∀ s ∈ slots, SlotValid s) : 0 ≤ totalStretch slots := by
  induction slots with
  | nil => simp [totalStretch]
  | cons s rest ih =>
    have hs : 0 ≤ slotStretch s := by
      have := h s (List.mem_cons_self s rest)
      cases s with
      | fixed e => simp [slotStretch]
      | active c => exact (this.2 : 0 ≤ c.stretch)
    have hrest := ih (fun t ht => h t (List.mem_cons_of_mem s ht))
    simp only [totalStretch, List.map_cons, List.sum_cons]
    have : 0 ≤ (List.map slotStretch rest).sum := hrest
    linarith

theorem extraOf_nonneg {slack wsum : ℚ} {c : Child} (hslack : 0 ≤ slack)
    (hwsum : 0 ≤ wsum) (hstr : 0 ≤ c.stretch) :
    0 ≤ extraOf slack wsum c :=
  div_nonneg (mul_nonneg hslack hstr) hwsum

theorem clampPass_sum_slotMin (slack wsum : ℚ) :
    ∀ slots : List Slot,
      ((clampPass slack wsum slots).1.map slotMin).sum =
        (slots.map slotMin).sum + (clampPass slack wsum slots).2 := by
  intro slots
  induction slots with
  | nil => simp [clampPass]
  | cons s rest ih =>
    cases s with
    | fixed e => simp [clampPass, slotMin, ih]; ring
    | active c =>
      by_cases h : c.max < c.min + extraOf slack wsum c
      · simp only [clampPass, if_pos h, List.map_cons, List.sum_cons, slotMin]
        rw [ih]; ring
      · simp only [clampPass, if_neg h, List.map_cons, List.sum_cons, slotMin]
        rw [ih]; ring

theorem clampPass_consumed_le_extra {slack wsum : ℚ} (hslack : 0 ≤ slack)
    (hwsum : 0 ≤ wsum) :
    ∀ slots : List Slot, (∀ s ∈ slots, SlotValid s) →
      (clampPass slack wsum slots).2 ≤ (slots.map (slotExtra slack wsum)).sum := by
  intro slots
  induction slots with
  | nil => intro _; simp [clampPass]
  | cons s rest ih =>
    intro h
    have hrest := ih (fun t ht => h t (List.mem_cons_of_mem s ht))
    cases s with
    | fixed e =>
      simp only [clampPass, List.map_cons, List.sum_cons, slotExtra]
      linarith
    | active c =>
      have hc : ChildValid c := h _ (List.mem_cons_self _ rest)
      have hext : 0 ≤ extraOf slack wsum c :=
        extraOf_nonneg hslack hwsum hc.2
      by_cases hover : c.max < c.min + extraOf slack wsum c
      · simp only [clampPass, if_pos hover, List.map_cons, List.sum_cons, slotExtra]
        have : c.max - c.min ≤ extraOf slack wsum c := by linarith
        linarith
      · simp only [clampPass, if_neg hover, List.map_cons, List.sum_cons, slotExtra]
        linarith

theorem sum_slotExtra (slack wsum : ℚ) (slots : List Slot) :
    (slots.map (slotExtra slack wsum)).sum = slack / wsum * totalStretch slots := by
  have hmap : slots.map (slotExtra slack wsum) =
      slots.map (fun s => slack / wsum * slotStretch s) := by
    apply List.map_congr_left
    intro s _
    cases s with
    | fixed e => simp [slotExtra, slotStretch]
    | active c =>
      simp only [slotExtra, slotStretch, extraOf]
      rw [mul_div_right_comm]
  rw [hmap, List.sum_map_mul_left, totalStretch]

theorem clampPass_consumed_le_slack {slack : ℚ} (hslack : 0 ≤ slack)
    (slots : List Slot) (h : ∀ s ∈ slots, SlotValid s) :
    (clampPass slack (totalStretch slots) slots).2 ≤ slack := by
  have hwsum : 0 ≤ totalStretch slots := totalStretch_nonneg h
  have h1 := clampPass_consumed_le_extra hslack hwsum slots h
  rw [sum_slotExtra] at h1
  by_cases hz : totalStretch slots = 0
  · rw [hz] at h1 ⊢
    simp only [mul_zero] at h1
    linarith
  · rw [div_mul_cancel₀ slack hz] at h1
    exact h1

theorem clampPass_rel (slack wsum : ℚ) {cs : List Child} {slots : List Slot}
    (hrel : List.Forall₂ SlotRel cs slots)
    (hvalid : ∀ c ∈ cs, ChildValid c) :
    List.Forall₂ SlotRel cs (clampPass slack wsum slots).1 := by
  induction hrel with
  | nil => exact List.Forall₂.nil
  | @cons c s cs' slots' hcs htail ih =>
    have hvc : ChildValid c := hvalid c (List.mem_cons_self c cs')
    have hvrest := fun x hx => hvalid x (List.mem_cons_of_mem c hx)
    cases s with
    | fixed e =>
      simpa [clampPass] using List.Forall₂.cons hcs (ih hvrest)
    | active c2 =>
      have hc2 : c2 = c := hcs
      subst hc2
      by_cases hover : c2.max < c2.min + extraOf slack wsum c2
      · simp only [clampPass, if_pos hover]
        exact List.Forall₂.cons ⟨hvc.1, le_refl _⟩ (ih hvrest)
      · simp only [clampPass, if_neg hover]
        exact List.Forall₂.cons rfl (ih hvrest)

theorem assignFinal_bounds {slack wsum : ℚ} (hslack : 0 ≤ slack)
    (hwsum : 0 ≤ wsum) {cs : List Child} {slots : List Slot}
    (hrel : List.Forall₂ SlotRel cs slots)
    (hvalid : ∀ c ∈ cs, ChildValid c)
    (hno : ¬ anyOver slack wsum slots) :
    List.Forall₂ (fun c x => c.min ≤ x ∧ x ≤ c.max) cs
      (assignFinal slack wsum slots) := by
  induction hrel with
  | nil => exact List.Forall₂.nil
  | @cons c s cs' slots' hcs htail ih =>
    have hno1 : ¬ overMax slack wsum s := fun hx => hno (Or.inl hx)
    have hno2 : ¬ anyOver slack wsum slots' := fun hx => hno (Or.inr hx)
    have hvc : ChildValid c := hvalid c (List.mem_cons_self c cs')
    have hvrest := fun x hx => hvalid x (List.mem_cons_of_mem c hx)
    cases s with
    | fixed e =>
      have he : c.min ≤ e ∧ e ≤ c.max := hcs
      have htail := ih hvrest hno2
      simp only [assignFinal, List.map_cons] at htail ⊢
      exact List.Forall₂.cons he htail
    | active c2 =>
      have hc2 : c2 = c := hcs
      subst hc2
      have hext : 0 ≤ extraOf slack wsum c2 :=
        extraOf_nonneg hslack hwsum hvc.2
      have hup : c2.min + extraOf slack wsum c2 ≤ c2.max :=
        not_lt.mp hno1
      simp only [assignFinal, List.map_cons]
      exact List.Forall₂.cons ⟨by linarith, hup⟩ (ih hvrest hno2)

theorem sum_map_add (f g : Slot → ℚ) :
    ∀ l : List Slot,
      (l.map (fun s => f s + g s)).sum = (l.map f).sum + (l.map g).sum := by
  intro l
  induction l with
  | nil => simp
  | cons s rest ih =>
    simp only [List.map_cons, List.sum_cons, ih]
    ring

theorem assignFinal_sum (slack wsum : ℚ) (slots : List Slot) :
    (assignFinal slack wsum slots).sum =
      (slots.map slotMin).sum + slack / wsum * totalStretch slots := by
  have hmap : assignFinal slack wsum slots =
      slots.map (fun s => slotMin s + slotExtra slack wsum s) := by
    apply List.map_congr_left
    intro s _
    cases s with
    | fixed e => simp [slotMin, slotExtra]
    | active c => simp [slotMin, slotExtra]
  rw [hmap, sum_map_add, sum_slotExtra]

theorem mapSlotMin_bounds {cs : List Child} {slots : List Slot}
    (hrel : List.Forall₂ SlotRel cs slots)
    (hvalid : ∀ c ∈ cs, ChildValid c) :
    List.Forall₂ (fun c x => c.min ≤ x ∧ x ≤ c.max) cs (slots.map slotMin) := by
  induction hrel with
  | nil => exact List.Forall₂.nil
  | @cons c s cs' slots' hcs htail ih =>
    have hvc : ChildValid c := hvalid c (List.mem_cons_self c cs')
    have hvrest := fun x hx => hvalid x (List.mem_cons_of_mem c hx)
    cases s with
    | fixed e =>
      have he : c.min ≤ e ∧ e ≤ c.max := hcs
      have htail := ih hvrest
      simp only [List.map_cons, slotMin] at htail ⊢
      exact List.Forall₂.cons he htail
    | active c2 =>
      have hc2 : c2 = c := hcs
      subst hc2
      exact List.Forall₂.cons ⟨le_refl _, hvc.1⟩ (ih hvrest)

theorem distribute_spec (cs : List Child) (hvalid : ∀ c ∈ cs, ChildValid c) :
    ∀ (fuel : Nat) (slots : List Slot) (slack : ℚ),
      List.Forall₂ SlotRel cs slots →
      0 ≤ slack →
      (distribute fuel slots slack).sum ≤ (slots.map slotMin).sum + slack ∧
      List.Forall₂ (fun c x => c.min ≤ x ∧ x ≤ c.max) cs
        (distribute fuel slots slack) := by
  intro fuel
  induction fuel with
  | zero =>
    intro slots slack hrel hslack
    constructor
    · simp only [distribute]
      linarith
    · simpa only [distribute] using mapSlotMin_bounds hrel hvalid
  | succ fuel ih =>
    intro slots slack hrel hslack
    have hsv : ∀ s ∈ slots, SlotValid s := slotValid_of_rel hrel hvalid
    have hwsum : 0 ≤ totalStretch slots := totalStretch_nonneg hsv
    by_cases hover : anyOver slack (totalStretch slots) slots
    · have hcons := clampPass_consumed_le_slack hslack slots hsv
      have hslack2 : 0 ≤ slack - (clampPass slack (totalStretch slots) slots).2 := by
        linarith
      have hrel2 := clampPass_rel slack (totalStretch slots) hrel hvalid
      obtain ⟨hsum, hbnd⟩ := ih _ _ hrel2 hslack2
      constructor
      · simp only [distribute, if_pos hover]
        have heq := clampPass_sum_slotMin slack (totalStretch slots) slots
        calc (distribute fuel (clampPass slack (totalStretch slots) slots).1
                (slack - (clampPass slack (totalStretch slots) slots).2)).sum
            ≤ ((clampPass slack (totalStretch slots) slots).1.map slotMin).sum +
                (slack - (clampPass slack (totalStretch slots) slots).2) := hsum
          _ = (slots.map slotMin).sum + slack := by rw [heq]; ring
      · simpa only [distribute, if_pos hover] using hbnd
    · constructor
      · simp only [distribute, if_neg hover]
        rw [assignFinal_sum]
        by_cases hz : totalStretch slots = 0
        · rw [hz]
          simp
          linarith
        · rw [div_mul_cancel₀ slack hz]
      · simpa only [distribute, if_neg hover] using
          assignFinal_bounds hslack hwsum hrel hvalid hover

/-- Counterexample for C1 as stated: a single child with limits `(0, 10)`
and stretch 1 in available extent 20 satisfies `A ≥ sum of minima`, yet
the child clamps at its maximum and the assigned extents sum to 10, not
to the available 20 — the leftover slack is a trailing gap. -/
theorem tile_layout_sum_counterexample :
    (List.map Child.min [(⟨0, 10, 1⟩ : Child)]).sum ≤ (20 : ℚ) ∧
    tile_layout [(⟨0, 10, 1⟩ : Child)] 20 = [10] ∧
    (tile_layout [(⟨0, 10, 1⟩ : Child)] 20).sum ≠ 20 := by
  refine ⟨by norm_num [Child.min], ?_, ?_⟩ <;>
    norm_num [tile_layout, distribute, clampPass, assignFinal, totalStretch,
      extraOf, overMax, anyOver, slotMin, slotStretch, Child.min]

/-- Claim C1 (amended): for every composite tile with children satisfying
the element invariant (`min ≤ max`, stretch `≥ 0`) and available extent
`A ≥ sum of minima`, every child's assigned extent is at least its minimum
and at most its maximum, and the assigned extents sum to at most `A`
(slack that maxima or zero stretch weights keep the children from
absorbing is left as a trailing gap); the sum is exactly `A` whenever no
child is over its maximum under the initial proportional distribution and
the total stretch is nonzero. -/
theorem tile_layout_bounds (children : List Child) (available : ℚ)
    (hvalid : ∀ c ∈ children, ChildValid c)
    (hA : (children.map Child.min).sum ≤ available) :
    (tile_layout children available).sum ≤ available ∧
    List.Forall₂ (fun c x => c.min ≤ x ∧ x ≤ c.max) children
      (tile_layout children available) ∧
    (¬ anyOver (available - (children.map Child.min).sum)
        (totalStretch (children.map Slot.active)) (children.map Slot.active) →
      totalStretch (children.map Slot.active) ≠ 0 →
      (tile_layout children available).sum = available) := by
  have hnlt : ¬ available < (children.map Child.min).sum := not_lt.mpr hA
  have hrel : List.Forall₂ SlotRel children (children.map Slot.active) := by
    rw [List.forall₂_map_right_iff]
    exact List.forall₂_same.mpr (fun x _ => rfl)
  have hminmap : ((children.map Slot.active).map slotMin).sum =
      (children.map Child.min).sum := by
    rw [List.map_map]
    rfl
  have hslack : 0 ≤ available - (children.map Child.min).sum := by linarith
  obtain ⟨hsum, hbnd⟩ :=
    distribute_spec children hvalid (children.length + 1)
      (children.map Slot.active) (available - (children.map Child.min).sum)
      hrel hslack
  refine ⟨?_, ?_, ?_⟩
  · simp only [tile_layout, if_neg hnlt]
    calc (distribute (children.length + 1) (children.map Slot.active)
            (available - (children.map Child.min).sum)).sum
        ≤ ((children.map Slot.active).map slotMin).sum +
            (available - (children.map Child.min).sum) := hsum
      _ = available := by rw [hminmap]; ring
  · simpa only [tile_layout, if_neg hnlt] using hbnd
  · intro hno hnz
    simp only [tile_layout, if_neg hnlt, distribute, if_neg hno]
    rw [assignFinal_sum, div_mul_cancel₀ _ hnz, hminmap]
    ring

/-- Witness for C1 (amended) at a single stretchable child with limits
`(0, 10)` in available extent 5: the slack is fully consumed. -/
theorem tile_layout_bounds_witness :
    (∀ c ∈ [(⟨0, 10, 1⟩ : Child)], ChildValid c) ∧
    ((List.map Child.min [(⟨0, 10, 1⟩ : Child)]).sum ≤ (5 : ℚ)) ∧
    ((tile_layout [(⟨0, 10, 1⟩ : Child)] 5).sum ≤ 5 ∧
     List.Forall₂ (fun c x => c.min ≤ x ∧ x ≤ c.max) [(⟨0, 10, 1⟩ : Child)]
       (tile_layout [(⟨0, 10, 1⟩ : Child)] 5) ∧
     (¬ anyOver ((5 : ℚ) - (List.map Child.min [(⟨0, 10, 1⟩ : Child)]).sum)
         (totalStretch (List.map Slot.active [(⟨0, 10, 1⟩ : Child)]))
         (List.map Slot.active [(⟨0, 10, 1⟩ : Child)]) →
       totalStretch (List.map Slot.active [(⟨0, 10, 1⟩ : Child)]) ≠ 0 →
       (tile_layout [(⟨0, 10, 1⟩ : Child)] 5).sum = 5)) :=
  ⟨by norm_num [ChildValid], by norm_num [Child.min],
    tile_layout_bounds [(⟨0, 10, 1⟩ : Child)] 5
      (by norm_num [ChildValid]) (by norm_num [Child.min])⟩

end Elements

